import Mathlib

/-! # GELU forward and backward kernels

A shallow embedding of `paddle/fluid/operators/gelu_op.h`, with the element
type `T` read as the real numbers.  The Eigen expressions of the source are
coefficient-wise; they are embedded twice: once at the level of a single
coefficient (`GeluFunctor`, `GeluGradFunctor`) and once at the level of the
flattened tensors the kernels work on (`GeluFunctorVec`, `GeluGradFunctorVec`,
`GeluKernel.Compute`, `GeluGradKernel.Compute`).  The backward functor is also
embedded in an element type with IEEE 754 infinities, NaN and overflow
(`FloatVal`, `GeluGradFunctorT`), where its behaviour differs from the real
reading.
-/

open Filter Topology MeasureTheory Set

namespace GeluOp

noncomputable section

/-! ## Constants and functions of `<cmath>` and Eigen used by the source -/

/-- The constant `M_2_SQRTPI` of `<cmath>`: two over the square root of pi. -/
def M_2_SQRTPI : ℝ := 2 / Real.sqrt Real.pi

/-- The constant `M_SQRT1_2` of `<cmath>`: one over the square root of two. -/
def M_SQRT1_2 : ℝ := 1 / Real.sqrt 2

/-- The Gaussian error function `erf` (Eigen's `.erf()`, `std::erf`):
`erf x = 2/sqrt(pi) * ∫_0^x exp(-t^2) dt`. -/
def erf (x : ℝ) : ℝ := 2 / Real.sqrt Real.pi * ∫ t in (0 : ℝ)..x, Real.exp (-t ^ 2)

/-- Eigen's coefficient-wise `.cube()`: `x * x * x`. -/
def cube (x : ℝ) : ℝ := x * x * x

/-- Eigen's coefficient-wise `.square()`: `x * x`. -/
def square (x : ℝ) : ℝ := x * x

/-! ## The functors, per coefficient -/

/-- `GeluFunctor<T>::operator()` (gelu_op.h, lines 36-48), the value written to
one coefficient of `out` from the coefficient `x` of the input. -/
def GeluFunctor (x : ℝ) (approximate : Bool) : ℝ :=
  if approximate then
    let temp := Real.tanh ((M_2_SQRTPI * M_SQRT1_2) * (x + 0.044715 * cube x))
    x * 0.5 * (1 + temp)
  else
    let temp := erf (x * M_SQRT1_2)
    x * 0.5 * (1 + temp)

/-- `GeluGradFunctor<T>::operator()` (gelu_op.h, lines 54-74), the value written
to one coefficient of `dx` from the coefficients `x` and `dout`. -/
def GeluGradFunctor (x dout : ℝ) (approximate : Bool) : ℝ :=
  if approximate then
    let kAlpha := M_2_SQRTPI * M_SQRT1_2
    let kBeta := kAlpha * 0.044715 * 3
    let y := Real.tanh (kAlpha * ((0.044715 * cube x) + x))
    0.5 * dout * (1 + y + (x - x * square y) * (kAlpha + kBeta * square x))
  else
    let first := 0.5 * (1 + erf (x * M_SQRT1_2))
    let second := (0.5 * M_2_SQRTPI * M_SQRT1_2) * x * Real.exp (-0.5 * square x)
    dout * (first + second)

/-! ## Eigen tensor expressions on flattened tensors -/

/-- A flattened tensor (`framework::EigenVector<T>::Flatten`): the sequence of
its elements. -/
abbrev EigenVector := List ℝ

/-- Coefficient-wise unary expression (`.tanh()`, `.erf()`, `.exp()`,
`.cube()`, `.square()`, unary minus). -/
def cwiseUnary (f : ℝ → ℝ) (v : EigenVector) : EigenVector := v.map f

/-- Coefficient-wise sum of two tensor expressions. -/
def cwiseAdd (v w : EigenVector) : EigenVector := List.zipWith (fun a b => a + b) v w

/-- Coefficient-wise difference of two tensor expressions. -/
def cwiseSub (v w : EigenVector) : EigenVector := List.zipWith (fun a b => a - b) v w

/-- Coefficient-wise product of two tensor expressions. -/
def cwiseMul (v w : EigenVector) : EigenVector := List.zipWith (fun a b => a * b) v w

/-- Scalar times tensor expression, `c * v`. -/
def scalarMul (c : ℝ) (v : EigenVector) : EigenVector := v.map (fun a => c * a)

/-- Tensor expression times scalar, `v * c`. -/
def mulScalar (v : EigenVector) (c : ℝ) : EigenVector := v.map (fun a => a * c)

/-- Scalar plus tensor expression, `c + v`. -/
def scalarAdd (c : ℝ) (v : EigenVector) : EigenVector := v.map (fun a => c + a)

/-- `GeluFunctor<T>::operator()` on whole tensor expressions: the value assigned
to `out` by `out.device(d) = ...`. -/
def GeluFunctorVec (x : EigenVector) (approximate : Bool) : EigenVector :=
  if approximate then
    let temp := cwiseUnary Real.tanh
      (scalarMul (M_2_SQRTPI * M_SQRT1_2)
        (cwiseAdd x (scalarMul 0.044715 (cwiseUnary cube x))))
    cwiseMul (mulScalar x 0.5) (scalarAdd 1 temp)
  else
    let temp := cwiseUnary erf (mulScalar x M_SQRT1_2)
    cwiseMul (mulScalar x 0.5) (scalarAdd 1 temp)

/-- `GeluGradFunctor<T>::operator()` on whole tensor expressions: the value
assigned to `dx` by `dx.device(d) = ...`. -/
def GeluGradFunctorVec (x dout : EigenVector) (approximate : Bool) : EigenVector :=
  if approximate then
    let kAlpha := M_2_SQRTPI * M_SQRT1_2
    let kBeta := kAlpha * 0.044715 * 3
    let y := cwiseUnary Real.tanh
      (scalarMul kAlpha (cwiseAdd (scalarMul 0.044715 (cwiseUnary cube x)) x))
    cwiseMul (scalarMul 0.5 dout)
      (cwiseAdd (scalarAdd 1 y)
        (cwiseMul (cwiseSub x (cwiseMul x (cwiseUnary square y)))
          (scalarAdd kAlpha (scalarMul kBeta (cwiseUnary square x)))))
  else
    let first := scalarMul 0.5 (scalarAdd 1 (cwiseUnary erf (mulScalar x M_SQRT1_2)))
    let second := cwiseMul (scalarMul (0.5 * M_2_SQRTPI * M_SQRT1_2) x)
      (cwiseUnary Real.exp (scalarMul (-0.5) (cwiseUnary square x)))
    cwiseMul dout (cwiseAdd first second)

/-! ## The kernels -/

/-- `GeluKernel<DeviceContext, T>::Compute` (gelu_op.h, lines 80-93): the
flattened input `X` and the attribute `approximate` give the flattened `Out`. -/
def GeluKernel.Compute (X : EigenVector) (approximate : Bool) : EigenVector :=
  let eigen_in := X
  GeluFunctorVec eigen_in approximate

/-- `GeluGradKernel<DeviceContext, T>::Compute` (gelu_op.h, lines 99-115): the
flattened `X`, the flattened gradient of `Out` and the attribute `approximate`
give the flattened gradient of `X`. -/
def GeluGradKernel.Compute (X dOut : EigenVector) (approximate : Bool) : EigenVector :=
  let eigen_x := X
  let eigen_dout := dOut
  GeluGradFunctorVec eigen_x eigen_dout approximate

/-! ## The element type `T` with overflow -/

/-- A value of the floating-point element type `T` (`float`, `double`), with
the rounding of finite results and the sign of zero left out: a finite real
number, plus or minus infinity, or NaN. -/
inductive FloatVal where
  | finite (r : ℝ)
  | posInf
  | negInf
  | nan

/-- The constant `DBL_MAX` of `<cfloat>`, the largest finite `double`:
`(2^53 - 1) * 2^971`, about `1.797e308`. -/
def DBL_MAX : ℝ := (2 ^ 53 - 1) * 2 ^ 971

/-- The result of an operation whose exact value is `r`, in a type whose
largest finite value is `maxFinite`: a magnitude above `maxFinite` overflows
to the infinity of its sign. -/
def FloatVal.ofReal (maxFinite r : ℝ) : FloatVal :=
  if maxFinite < r then FloatVal.posInf
  else if r < -maxFinite then FloatVal.negInf
  else FloatVal.finite r

/-- Unary minus of `T`. -/
def FloatVal.neg : FloatVal → FloatVal
  | FloatVal.finite a => FloatVal.finite (-a)
  | FloatVal.posInf => FloatVal.negInf
  | FloatVal.negInf => FloatVal.posInf
  | FloatVal.nan => FloatVal.nan

/-- Addition of `T` (IEEE 754): NaN propagates, `inf + (-inf)` is NaN, a finite
sum may overflow. -/
def FloatVal.add (maxFinite : ℝ) : FloatVal → FloatVal → FloatVal
  | FloatVal.nan, _ => FloatVal.nan
  | _, FloatVal.nan => FloatVal.nan
  | FloatVal.finite a, FloatVal.finite b => FloatVal.ofReal maxFinite (a + b)
  | FloatVal.finite _, FloatVal.posInf => FloatVal.posInf
  | FloatVal.finite _, FloatVal.negInf => FloatVal.negInf
  | FloatVal.posInf, FloatVal.finite _ => FloatVal.posInf
  | FloatVal.negInf, FloatVal.finite _ => FloatVal.negInf
  | FloatVal.posInf, FloatVal.posInf => FloatVal.posInf
  | FloatVal.negInf, FloatVal.negInf => FloatVal.negInf
  | FloatVal.posInf, FloatVal.negInf => FloatVal.nan
  | FloatVal.negInf, FloatVal.posInf => FloatVal.nan

/-- Subtraction of `T`: `a - b` is `a + (-b)`. -/
def FloatVal.sub (maxFinite : ℝ) (a b : FloatVal) : FloatVal :=
  FloatVal.add maxFinite a (FloatVal.neg b)

/-- The product of a finite value `a` and plus infinity (IEEE 754): `0 * inf`
is NaN, otherwise the infinity of the sign of `a`. -/
def FloatVal.mulPosInf (a : ℝ) : FloatVal :=
  if a = 0 then FloatVal.nan
  else if 0 < a then FloatVal.posInf
  else FloatVal.negInf

/-- The product of a finite value `a` and minus infinity (IEEE 754):
`0 * (-inf)` is NaN, otherwise the infinity of the opposite sign of `a`. -/
def FloatVal.mulNegInf (a : ℝ) : FloatVal :=
  if a = 0 then FloatVal.nan
  else if 0 < a then FloatVal.negInf
  else FloatVal.posInf

/-- Multiplication of `T` (IEEE 754): NaN propagates, `0 * inf` is NaN, a
finite product may overflow. -/
def FloatVal.mul (maxFinite : ℝ) : FloatVal → FloatVal → FloatVal
  | FloatVal.nan, _ => FloatVal.nan
  | _, FloatVal.nan => FloatVal.nan
  | FloatVal.finite a, FloatVal.finite b => FloatVal.ofReal maxFinite (a * b)
  | FloatVal.finite a, FloatVal.posInf => FloatVal.mulPosInf a
  | FloatVal.finite a, FloatVal.negInf => FloatVal.mulNegInf a
  | FloatVal.posInf, FloatVal.finite b => FloatVal.mulPosInf b
  | FloatVal.negInf, FloatVal.finite b => FloatVal.mulNegInf b
  | FloatVal.posInf, FloatVal.posInf => FloatVal.posInf
  | FloatVal.negInf, FloatVal.negInf => FloatVal.posInf
  | FloatVal.posInf, FloatVal.negInf => FloatVal.negInf
  | FloatVal.negInf, FloatVal.posInf => FloatVal.negInf

/-- Eigen's coefficient-wise `.cube()` in `T`: `x * x * x`. -/
def FloatVal.cube (maxFinite : ℝ) (x : FloatVal) : FloatVal :=
  FloatVal.mul maxFinite (FloatVal.mul maxFinite x x) x

/-- Eigen's coefficient-wise `.square()` in `T`: `x * x`. -/
def FloatVal.square (maxFinite : ℝ) (x : FloatVal) : FloatVal :=
  FloatVal.mul maxFinite x x

/-- The hyperbolic tangent of `T`: `tanh (inf) = 1`, `tanh (-inf) = -1`. -/
def FloatVal.tanh : FloatVal → FloatVal
  | FloatVal.finite a => FloatVal.finite (Real.tanh a)
  | FloatVal.posInf => FloatVal.finite 1
  | FloatVal.negInf => FloatVal.finite (-1)
  | FloatVal.nan => FloatVal.nan

/-- The error function of `T`: `erf (inf) = 1`, `erf (-inf) = -1`. -/
def FloatVal.erf : FloatVal → FloatVal
  | FloatVal.finite a => FloatVal.finite (GeluOp.erf a)
  | FloatVal.posInf => FloatVal.finite 1
  | FloatVal.negInf => FloatVal.finite (-1)
  | FloatVal.nan => FloatVal.nan

/-- The exponential of `T`: `exp (inf) = inf`, `exp (-inf) = 0`, a finite
argument may overflow. -/
def FloatVal.exp (maxFinite : ℝ) : FloatVal → FloatVal
  | FloatVal.finite a => FloatVal.ofReal maxFinite (Real.exp a)
  | FloatVal.posInf => FloatVal.posInf
  | FloatVal.negInf => FloatVal.finite 0
  | FloatVal.nan => FloatVal.nan

/-- `GeluGradFunctor<T>::operator()` (gelu_op.h, lines 54-74) in the element
type `T` with overflow, for one coefficient: every `*`, `+`, `-` of the source
is the operation of `T`, every `static_cast<T>(c)` the finite value `c`. -/
def GeluGradFunctorT (maxFinite : ℝ) (x dout : FloatVal) (approximate : Bool) : FloatVal :=
  if approximate then
    let kAlpha := FloatVal.finite (M_2_SQRTPI * M_SQRT1_2)
    let kBeta := FloatVal.mul maxFinite
      (FloatVal.mul maxFinite kAlpha (FloatVal.finite 0.044715)) (FloatVal.finite 3)
    let y := FloatVal.tanh
      (FloatVal.mul maxFinite kAlpha
        (FloatVal.add maxFinite
          (FloatVal.mul maxFinite (FloatVal.finite 0.044715) (FloatVal.cube maxFinite x)) x))
    FloatVal.mul maxFinite
      (FloatVal.mul maxFinite (FloatVal.finite 0.5) dout)
      (FloatVal.add maxFinite
        (FloatVal.add maxFinite (FloatVal.finite 1) y)
        (FloatVal.mul maxFinite
          (FloatVal.sub maxFinite x (FloatVal.mul maxFinite x (FloatVal.square maxFinite y)))
          (FloatVal.add maxFinite kAlpha
            (FloatVal.mul maxFinite kBeta (FloatVal.square maxFinite x)))))
  else
    let first := FloatVal.mul maxFinite (FloatVal.finite 0.5)
      (FloatVal.add maxFinite (FloatVal.finite 1)
        (FloatVal.erf (FloatVal.mul maxFinite x (FloatVal.finite M_SQRT1_2))))
    let second := FloatVal.mul maxFinite
      (FloatVal.mul maxFinite (FloatVal.finite (0.5 * M_2_SQRTPI * M_SQRT1_2)) x)
      (FloatVal.exp maxFinite
        (FloatVal.mul maxFinite (FloatVal.neg (FloatVal.finite 0.5))
          (FloatVal.square maxFinite x)))
    FloatVal.mul maxFinite dout (FloatVal.add maxFinite first second)

/-! ## Constants -/

theorem sqrt_pi_pos : 0 < Real.sqrt Real.pi := Real.sqrt_pos.2 Real.pi_pos

theorem sqrt_two_pos : 0 < Real.sqrt 2 := Real.sqrt_pos.2 (by norm_num)

/-- The constant `kAlpha` of the source is the square root of `2 / pi`. -/
theorem kAlpha_eq : M_2_SQRTPI * M_SQRT1_2 = Real.sqrt (2 / Real.pi) := by
  have h2 : Real.sqrt 2 * Real.sqrt 2 = 2 := Real.mul_self_sqrt (by norm_num)
  have hp := sqrt_pi_pos
  have ht := sqrt_two_pos
  rw [Real.sqrt_div (by norm_num), M_2_SQRTPI, M_SQRT1_2]
  field_simp
  linear_combination (-Real.sqrt Real.pi) * h2

/-- The coefficient of the exact gradient is one over the square root of `2 pi`. -/
theorem half_kAlpha_eq : 0.5 * M_2_SQRTPI * M_SQRT1_2 = 1 / Real.sqrt (2 * Real.pi) := by
  have h2 : Real.sqrt 2 * Real.sqrt 2 = 2 := Real.mul_self_sqrt (by norm_num)
  have hp := sqrt_pi_pos
  have ht := sqrt_two_pos
  rw [Real.sqrt_mul (by norm_num), M_2_SQRTPI, M_SQRT1_2]
  field_simp
  ring_nf

theorem mul_M_SQRT1_2 (x : ℝ) : x * M_SQRT1_2 = x / Real.sqrt 2 := by
  rw [M_SQRT1_2, mul_one_div]

/-! ## The closed forms of the specification (C3 - C6, C8) -/

/-- C3: the exact forward is `x * 0.5 * (1 + erf (x * M_SQRT1_2))` with
`M_SQRT1_2 = 1 / sqrt 2`, which equals `0.5 * x * (1 + erf (x / sqrt 2))` for
every real `x`, with no special case. -/
theorem C3_exact_forward (x : ℝ) :
    GeluFunctor x false = x * 0.5 * (1 + erf (x * M_SQRT1_2)) ∧
    M_SQRT1_2 = 1 / Real.sqrt 2 ∧
    GeluFunctor x false = 0.5 * x * (1 + erf (x / Real.sqrt 2)) := by
  refine ⟨by simp [GeluFunctor], rfl, ?_⟩
  simp only [GeluFunctor, mul_M_SQRT1_2]
  simp only [Bool.false_eq_true, if_false]
  ring

/-- C4: the approximate forward is
`x * 0.5 * (1 + tanh ((M_2_SQRTPI * M_SQRT1_2) * (x + 0.044715 * x^3)))`, which
equals `0.5 * x * (1 + tanh (sqrt (2/pi) * (x + 0.044715 * x^3)))`; the constant
product equals `sqrt (2/pi)`. -/
theorem C4_approximate_forward (x : ℝ) :
    GeluFunctor x true =
      x * 0.5 * (1 + Real.tanh ((M_2_SQRTPI * M_SQRT1_2) * (x + 0.044715 * x ^ 3))) ∧
    M_2_SQRTPI = 2 / Real.sqrt Real.pi ∧ M_SQRT1_2 = 1 / Real.sqrt 2 ∧
    M_2_SQRTPI * M_SQRT1_2 = Real.sqrt (2 / Real.pi) ∧
    GeluFunctor x true =
      0.5 * x * (1 + Real.tanh (Real.sqrt (2 / Real.pi) * (x + 0.044715 * x ^ 3))) := by
  have hc : cube x = x ^ 3 := by rw [cube]; ring
  refine ⟨by simp [GeluFunctor, hc], rfl, rfl, kAlpha_eq, ?_⟩
  simp only [GeluFunctor, if_true, hc, kAlpha_eq]
  ring

/-- C5: the exact backward equals
`g * (0.5 * (1 + erf (x / sqrt 2)) + (x / sqrt (2 pi)) * exp (-x^2 / 2))`, and
the coefficient `0.5 * M_2_SQRTPI * M_SQRT1_2` equals `1 / sqrt (2 pi)`. -/
theorem C5_exact_backward (x g : ℝ) :
    GeluGradFunctor x g false =
      g * (0.5 * (1 + erf (x * M_SQRT1_2)) +
        (0.5 * M_2_SQRTPI * M_SQRT1_2) * x * Real.exp (-0.5 * x ^ 2)) ∧
    0.5 * (2 / Real.sqrt Real.pi) * (1 / Real.sqrt 2) = 1 / Real.sqrt (2 * Real.pi) ∧
    GeluGradFunctor x g false =
      g * (0.5 * (1 + erf (x / Real.sqrt 2)) +
        (x / Real.sqrt (2 * Real.pi)) * Real.exp (-x ^ 2 / 2)) := by
  have hs : square x = x ^ 2 := by rw [square]; ring
  have he : (-0.5 : ℝ) * x ^ 2 = -x ^ 2 / 2 := by ring
  refine ⟨by simp [GeluGradFunctor, hs], half_kAlpha_eq, ?_⟩
  simp only [GeluGradFunctor, Bool.false_eq_true, if_false, hs, half_kAlpha_eq, he]
  rw [mul_M_SQRT1_2]
  ring

/-- C6: the approximate backward equals
`g * 0.5 * (1 + y + (x - x * y^2) * (alpha + beta * x^2))` with
`alpha = sqrt (2/pi)`, `beta = 3 * alpha * 0.044715` and
`y = tanh (alpha * (x + 0.044715 * x^3))`. -/
theorem C6_approximate_backward (x g : ℝ) :
    GeluGradFunctor x g true =
      g * 0.5 *
        (1 + Real.tanh (Real.sqrt (2 / Real.pi) * (x + 0.044715 * x ^ 3)) +
          (x - x * Real.tanh (Real.sqrt (2 / Real.pi) * (x + 0.044715 * x ^ 3)) ^ 2) *
            (Real.sqrt (2 / Real.pi) + 3 * Real.sqrt (2 / Real.pi) * 0.044715 * x ^ 2)) := by
  have hc : cube x = x ^ 3 := by rw [cube]; ring
  have hs : ∀ t : ℝ, square t = t ^ 2 := fun t => by rw [square]; ring
  have ha : 0.044715 * x ^ 3 + x = x + 0.044715 * x ^ 3 := by ring
  simp only [GeluGradFunctor, if_true, hc, hs, kAlpha_eq, ha]
  ring

/-- C8: the forward of `0` is exactly `0`, in the exact and in the approximate
mode. -/
theorem C8_forward_zero : GeluFunctor 0 false = 0 ∧ GeluFunctor 0 true = 0 := by
  constructor <;> simp [GeluFunctor]

/-! ## The kernels work coefficient by coefficient (C7) -/

/-- The forward tensor expression is the coefficient function mapped over the
input. -/
theorem GeluFunctorVec_eq_map (x : EigenVector) (approximate : Bool) :
    GeluFunctorVec x approximate = x.map (fun v => GeluFunctor v approximate) := by
  induction x with
  | nil => cases approximate <;> rfl
  | cons a l ih =>
    cases approximate
    · simp only [GeluFunctorVec, GeluFunctor, cwiseUnary, cwiseMul, mulScalar, scalarAdd,
        Bool.false_eq_true, if_false, List.map_cons, List.zipWith_cons_cons,
        List.cons.injEq, true_and] at ih ⊢
      exact ih
    · simp only [GeluFunctorVec, GeluFunctor, cwiseUnary, cwiseMul, cwiseAdd, mulScalar,
        scalarAdd, scalarMul, if_true, List.map_cons, List.zipWith_cons_cons,
        List.cons.injEq, true_and] at ih ⊢
      exact ih

/-- The backward tensor expression is the coefficient function zipped over the
input and the upstream gradient. -/
theorem GeluGradFunctorVec_eq_zipWith (x dout : EigenVector) (approximate : Bool) :
    GeluGradFunctorVec x dout approximate =
      List.zipWith (fun v g => GeluGradFunctor v g approximate) x dout := by
  induction x generalizing dout with
  | nil => cases approximate <;> cases dout <;> rfl
  | cons a l ih =>
    cases dout with
    | nil => cases approximate <;> rfl
    | cons b m =>
      have ih2 := ih m
      cases approximate
      · simp only [GeluGradFunctorVec, GeluGradFunctor, cwiseUnary, cwiseMul, cwiseAdd,
          mulScalar, scalarAdd, scalarMul, Bool.false_eq_true, if_false, List.map_cons,
          List.zipWith_cons_cons, List.cons.injEq, true_and] at ih2 ⊢
        exact ih2
      · simp only [GeluGradFunctorVec, GeluGradFunctor, cwiseUnary, cwiseMul, cwiseAdd,
          cwiseSub, mulScalar, scalarAdd, scalarMul, if_true, List.map_cons,
          List.zipWith_cons_cons, List.cons.injEq, true_and] at ih2 ⊢
        exact ih2

/-- C7: element-wise independence and count preservation.  The forward output
has as many elements as the input and its `i`-th element is the scalar forward
of the `i`-th input alone; for an upstream gradient of the same element count
the backward output has that element count and its `i`-th element is the scalar
backward of the `i`-th input and `i`-th gradient alone; the kernels run on the
one-element tensors give the same per-element results. -/
theorem C7_elementwise (approximate : Bool) (xs gs : EigenVector) :
    ((GeluKernel.Compute xs approximate).length = xs.length ∧
      ∀ (i : ℕ) (x : ℝ), xs[i]? = some x →
        (GeluKernel.Compute xs approximate)[i]? = some (GeluFunctor x approximate) ∧
        (GeluKernel.Compute xs approximate)[i]? = (GeluKernel.Compute [x] approximate)[0]?) ∧
    (gs.length = xs.length →
      (GeluGradKernel.Compute xs gs approximate).length = xs.length ∧
      ∀ (i : ℕ) (x g : ℝ), xs[i]? = some x → gs[i]? = some g →
        (GeluGradKernel.Compute xs gs approximate)[i]? =
          some (GeluGradFunctor x g approximate) ∧
        (GeluGradKernel.Compute xs gs approximate)[i]? =
          (GeluGradKernel.Compute [x] [g] approximate)[0]?) := by
  simp only [GeluKernel.Compute, GeluGradKernel.Compute, GeluFunctorVec_eq_map,
    GeluGradFunctorVec_eq_zipWith]
  refine ⟨⟨by simp, ?_⟩, ?_⟩
  · intro i x hx
    simp [hx]
  · intro hlen
    refine ⟨by simp [hlen], ?_⟩
    intro i x g hx hg
    simp [List.getElem?_zipWith, hx, hg]

/-- C7 at the tensors `[0, 1]` and `[1, 1]`, exact mode, second element. -/
theorem C7_elementwise_witness :
    (GeluGradKernel.Compute [0, 1] [1, 1] false).length = 2 ∧
      (GeluKernel.Compute [0, 1] false)[1]? = some (GeluFunctor 1 false) ∧
      (GeluGradKernel.Compute [0, 1] [1, 1] false)[1]? =
        some (GeluGradFunctor 1 1 false) :=
  ⟨((C7_elementwise false [0, 1] [1, 1]).2 rfl).1,
    ((C7_elementwise false [0, 1] [1, 1]).1.2 1 1 rfl).1,
    (((C7_elementwise false [0, 1] [1, 1]).2 rfl).2 1 1 1 rfl rfl).1⟩

/-! ## The backward functor is the derivative of the forward functor (C1, C2) -/

/-- The integrand of `erf` is continuous. -/
theorem continuous_exp_neg_sq : Continuous (fun t : ℝ => Real.exp (-t ^ 2)) := by
  continuity

/-- The derivative of `erf` at `x` is `2/sqrt(pi) * exp(-x^2)`. -/
theorem hasDerivAt_erf (x : ℝ) :
    HasDerivAt erf (2 / Real.sqrt Real.pi * Real.exp (-x ^ 2)) x := by
  have h := (continuous_exp_neg_sq.integral_hasStrictDerivAt 0 x).hasDerivAt
  exact h.const_mul (2 / Real.sqrt Real.pi)

/-- The derivative of `tanh` at `x` is `1 - tanh(x)^2`. -/
theorem hasDerivAt_tanh (x : ℝ) : HasDerivAt Real.tanh (1 - Real.tanh x ^ 2) x := by
  have hc : Real.cosh x ≠ 0 := (Real.cosh_pos x).ne'
  have h := (Real.hasDerivAt_sinh x).div (Real.hasDerivAt_cosh x) hc
  have hf : (fun t => Real.sinh t / Real.cosh t) = Real.tanh := by
    funext t; exact (Real.tanh_eq_sinh_div_cosh t).symm
  rw [hf] at h
  convert h using 1
  rw [Real.tanh_eq_sinh_div_cosh]
  field_simp
  linear_combination -(Real.cosh_sq x)

theorem M_SQRT1_2_sq : M_SQRT1_2 ^ 2 = 1 / 2 := by
  rw [M_SQRT1_2, div_pow, Real.sq_sqrt (by norm_num)]
  norm_num

/-- The exact forward has derivative `GeluGradFunctor x 1 false` at `x`. -/
theorem hasDerivAt_GeluFunctor_exact (x : ℝ) :
    HasDerivAt (fun t => GeluFunctor t false) (GeluGradFunctor x 1 false) x := by
  have h1 : HasDerivAt (fun t : ℝ => t * 0.5) (1 * 0.5) x := (hasDerivAt_id x).mul_const 0.5
  have h2 : HasDerivAt (fun t : ℝ => t * M_SQRT1_2) (1 * M_SQRT1_2) x :=
    (hasDerivAt_id x).mul_const M_SQRT1_2
  have h3 := ((hasDerivAt_erf (x * M_SQRT1_2)).comp x h2).const_add 1
  have h := h1.mul h3
  have hf : (fun t => GeluFunctor t false) =
      (fun t : ℝ => t * 0.5) * fun t => 1 + (erf ∘ fun t => t * M_SQRT1_2) t := by
    funext t
    simp [GeluFunctor]
  rw [hf]
  convert h using 1
  have he : -(x * M_SQRT1_2) ^ 2 = -0.5 * square x := by
    rw [mul_pow, M_SQRT1_2_sq, square]; ring
  simp only [GeluGradFunctor, Bool.false_eq_true, if_false, Function.comp_apply]
  rw [he]
  simp only [M_2_SQRTPI]
  ring

/-- The approximate forward has derivative `GeluGradFunctor x 1 true` at `x`. -/
theorem hasDerivAt_GeluFunctor_approximate (x : ℝ) :
    HasDerivAt (fun t => GeluFunctor t true) (GeluGradFunctor x 1 true) x := by
  have h1 : HasDerivAt (fun t : ℝ => t * 0.5) (1 * 0.5) x := (hasDerivAt_id x).mul_const 0.5
  have hcube : HasDerivAt (fun t : ℝ => cube t) (3 * x ^ 2) x := by
    have h := hasDerivAt_pow 3 x
    have hf : (fun t : ℝ => cube t) = fun t => t ^ 3 := by funext t; rw [cube]; ring
    rw [hf]
    convert h using 1
  have h2 : HasDerivAt (fun t : ℝ => (M_2_SQRTPI * M_SQRT1_2) * (t + 0.044715 * cube t))
      ((M_2_SQRTPI * M_SQRT1_2) * (1 + 0.044715 * (3 * x ^ 2))) x :=
    ((hasDerivAt_id x).add (hcube.const_mul 0.044715)).const_mul _
  have h3 := ((hasDerivAt_tanh _).comp x h2).const_add 1
  have h := h1.mul h3
  have hf : (fun t => GeluFunctor t true) =
      (fun t : ℝ => t * 0.5) * fun t => 1 + (Real.tanh ∘ fun t =>
        (M_2_SQRTPI * M_SQRT1_2) * (t + 0.044715 * cube t)) t := by
    funext t
    simp [GeluFunctor]
  rw [hf]
  convert h using 1
  have ha : 0.044715 * cube x + x = x + 0.044715 * cube x := by ring
  simp only [GeluGradFunctor, if_true, Function.comp_apply, ha, square]
  ring

/-- C1: exact mode.  The forward function is differentiable at every real `x`,
and for every upstream gradient `g` the backward value `GeluGradFunctor x g`
equals `g` times the derivative of the forward function at `x`. -/
theorem C1_exact_backward_is_derivative (x g : ℝ) :
    DifferentiableAt ℝ (fun t => GeluFunctor t false) x ∧
    GeluGradFunctor x g false = g * deriv (fun t => GeluFunctor t false) x := by
  have h := hasDerivAt_GeluFunctor_exact x
  refine ⟨h.differentiableAt, ?_⟩
  rw [h.deriv]
  simp only [GeluGradFunctor, Bool.false_eq_true, if_false]
  ring

/-- C2: approximate mode.  The forward function is differentiable at every real
`x`, and for every upstream gradient `g` the backward value
`GeluGradFunctor x g` equals `g` times the derivative of the forward function
at `x`. -/
theorem C2_approximate_backward_is_derivative (x g : ℝ) :
    DifferentiableAt ℝ (fun t => GeluFunctor t true) x ∧
    GeluGradFunctor x g true = g * deriv (fun t => GeluFunctor t true) x := by
  have h := hasDerivAt_GeluFunctor_approximate x
  refine ⟨h.differentiableAt, ?_⟩
  rw [h.deriv]
  simp only [GeluGradFunctor, if_true]
  ring

/-! ## The error function and the Gaussian tail -/

/-- The Gaussian tail integral `∫_z^∞ exp(-t^2) dt`. -/
def gaussTail (z : ℝ) : ℝ := ∫ t in Ioi z, Real.exp (-t ^ 2)

theorem integrable_exp_neg_sq : Integrable (fun t : ℝ => Real.exp (-t ^ 2)) := by
  have h := integrable_exp_neg_mul_sq (b := 1) one_pos
  simpa using h

theorem gaussTail_zero : gaussTail 0 = Real.sqrt Real.pi / 2 := by
  have h := integral_gaussian_Ioi 1
  simpa [gaussTail] using h

theorem integral_Iic_exp_neg_sq (y : ℝ) :
    ∫ t in Iic y, Real.exp (-t ^ 2) = gaussTail (-y) := by
  have h := integral_comp_neg_Iic y (fun t : ℝ => Real.exp (-t ^ 2))
  simpa [gaussTail] using h

/-- The gate `1 + erf y` is the Gaussian tail at `-y`, scaled. -/
theorem one_add_erf (y : ℝ) : 1 + erf y = 2 / Real.sqrt Real.pi * gaussTail (-y) := by
  have hi := integrable_exp_neg_sq
  have h := intervalIntegral.integral_Iic_sub_Iic (hi.integrableOn (s := Iic 0))
    (hi.integrableOn (s := Iic y))
  rw [integral_Iic_exp_neg_sq, integral_Iic_exp_neg_sq, neg_zero, gaussTail_zero] at h
  have hp := sqrt_pi_pos
  rw [erf, ← h]
  field_simp
  ring

theorem gaussTail_nonneg (z : ℝ) : 0 ≤ gaussTail z :=
  setIntegral_nonneg measurableSet_Ioi (fun _ _ => (Real.exp_pos _).le)

/-- Tail bound: `z * ∫_z^∞ exp(-t^2) dt ≤ exp(-z^2)` for positive `z`. -/
theorem gaussTail_le (z : ℝ) (hz : 0 < z) : z * gaussTail z ≤ Real.exp (-z ^ 2) := by
  have h1 : gaussTail z ≤ ∫ t in Ioi z, Real.exp (-z * t) := by
    refine setIntegral_mono_on integrable_exp_neg_sq.integrableOn
      (exp_neg_integrableOn_Ioi z hz) measurableSet_Ioi ?_
    intro t ht
    have ht2 : z < t := ht
    apply Real.exp_le_exp.2
    nlinarith
  have h2 : ∫ t in Ioi z, Real.exp (-z * t) = z⁻¹ * Real.exp (-z ^ 2) := by
    have h := integral_comp_mul_left_Ioi (fun u : ℝ => Real.exp (-u)) z hz
    rw [integral_exp_neg_Ioi] at h
    simp only [smul_eq_mul] at h
    rw [← sq] at h
    rw [← h]
    congr 1
    funext t
    ring_nf
  rw [h2] at h1
  calc z * gaussTail z ≤ z * (z⁻¹ * Real.exp (-z ^ 2)) := by gcongr
    _ = Real.exp (-z ^ 2) := by field_simp

/-- The error function is odd. -/
theorem erf_neg (y : ℝ) : erf (-y) = -erf y := by
  have h := intervalIntegral.integral_comp_neg (a := 0) (b := y)
    (fun t : ℝ => Real.exp (-t ^ 2))
  simp only [neg_sq, neg_zero] at h
  rw [erf, erf, intervalIntegral.integral_symm, h]
  ring

theorem cube_neg (x : ℝ) : cube (-x) = -cube x := by
  rw [cube, cube]; ring

/-- Reflection: `GeluFunctor x - GeluFunctor (-x) = x` in both modes. -/
theorem GeluFunctor_sub_neg (x : ℝ) (approximate : Bool) :
    GeluFunctor x approximate - GeluFunctor (-x) approximate = x := by
  cases approximate
  · simp only [GeluFunctor, Bool.false_eq_true, if_false, neg_mul, erf_neg]
    ring
  · have h : M_2_SQRTPI * M_SQRT1_2 * (-x + 0.044715 * cube (-x)) =
        -(M_2_SQRTPI * M_SQRT1_2 * (x + 0.044715 * cube x)) := by
      rw [cube_neg]; ring
    simp only [GeluFunctor, if_true, h, Real.tanh_neg]
    ring

/-! ## Asymptotics of the forward functor (C9) -/

/-- For positive `x` the exact forward at `-x` is at most
`sqrt 2 / sqrt pi * exp (-(x^2/2))` in absolute value. -/
theorem abs_GeluFunctor_neg_exact_le (x : ℝ) (hx : 0 < x) :
    |GeluFunctor (-x) false| ≤ Real.sqrt 2 / Real.sqrt Real.pi * Real.exp (-(x ^ 2 / 2)) := by
  have hp := sqrt_pi_pos
  have ht := sqrt_two_pos
  have hM : 0 < M_SQRT1_2 := by rw [M_SQRT1_2]; positivity
  have hz : 0 < x * M_SQRT1_2 := mul_pos hx hM
  have hb := gaussTail_le _ hz
  have hn := gaussTail_nonneg (x * M_SQRT1_2)
  have he : -(x * M_SQRT1_2) ^ 2 = -(x ^ 2 / 2) := by
    rw [mul_pow, M_SQRT1_2_sq]; ring
  rw [he] at hb
  have hval : GeluFunctor (-x) false =
      -(Real.sqrt 2 / Real.sqrt Real.pi * (x * M_SQRT1_2 * gaussTail (x * M_SQRT1_2))) := by
    simp only [GeluFunctor, Bool.false_eq_true, if_false]
    rw [one_add_erf]
    have hnn : -(-x * M_SQRT1_2) = x * M_SQRT1_2 := by ring
    rw [hnn]
    generalize gaussTail (x * M_SQRT1_2) = G
    rw [M_SQRT1_2]
    field_simp
    ring
  rw [hval, abs_neg, abs_of_nonneg (by positivity)]
  gcongr

/-- The constant `kAlpha` is at least one half. -/
theorem half_le_kAlpha : 1 / 2 ≤ M_2_SQRTPI * M_SQRT1_2 := by
  rw [kAlpha_eq]
  apply Real.le_sqrt_of_sq_le
  have h := Real.pi_le_four
  have hp := Real.pi_pos
  rw [le_div_iff₀ hp]
  nlinarith

/-- The gate `1 - tanh u` lies between `0` and `2 * exp (-2u)`. -/
theorem one_sub_tanh_bounds (u : ℝ) :
    0 ≤ 1 - Real.tanh u ∧ 1 - Real.tanh u ≤ 2 * Real.exp (-(2 * u)) := by
  have he : 0 < Real.exp u := Real.exp_pos u
  have hc : 0 < Real.cosh u := Real.cosh_pos u
  have h1 : 1 - Real.tanh u = Real.exp (-u) / Real.cosh u := by
    rw [Real.tanh_eq_sinh_div_cosh, ← Real.cosh_sub_sinh]
    field_simp
  have h2 : Real.exp u / 2 ≤ Real.cosh u := by
    rw [Real.cosh_eq]
    have := Real.exp_pos (-u)
    linarith
  have h3 : Real.exp (-(2 * u)) = Real.exp (-u) * Real.exp (-u) := by
    rw [← Real.exp_add]; ring_nf
  have h4 : Real.exp (-u) * Real.exp u = 1 := by
    rw [← Real.exp_add]; simp
  have hn : 0 < Real.exp (-u) := Real.exp_pos _
  rw [h1, h3]
  refine ⟨by positivity, ?_⟩
  rw [div_le_iff₀ hc]
  calc Real.exp (-u) = 2 * (Real.exp (-u) * Real.exp (-u)) * (Real.exp u / 2) := by
        linear_combination (-Real.exp (-u)) * h4
    _ ≤ 2 * (Real.exp (-u) * Real.exp (-u)) * Real.cosh u := by gcongr

/-- For positive `x` the approximate forward at `-x` is at most `x * exp (-x)`
in absolute value. -/
theorem abs_GeluFunctor_neg_approximate_le (x : ℝ) (hx : 0 < x) :
    |GeluFunctor (-x) true| ≤ x * Real.exp (-x) := by
  have hk := half_le_kAlpha
  have hu : x ≤ 2 * (M_2_SQRTPI * M_SQRT1_2 * (x + 0.044715 * cube x)) := by
    have hc : 0 ≤ cube x := by rw [cube]; positivity
    nlinarith
  obtain ⟨hb0, hb1⟩ := one_sub_tanh_bounds (M_2_SQRTPI * M_SQRT1_2 * (x + 0.044715 * cube x))
  have hb2 : Real.exp (-(2 * (M_2_SQRTPI * M_SQRT1_2 * (x + 0.044715 * cube x)))) ≤
      Real.exp (-x) := Real.exp_le_exp.2 (by linarith)
  have h : M_2_SQRTPI * M_SQRT1_2 * (-x + 0.044715 * cube (-x)) =
      -(M_2_SQRTPI * M_SQRT1_2 * (x + 0.044715 * cube x)) := by
    rw [cube_neg]; ring
  have hval : GeluFunctor (-x) true =
      -(x * 0.5 * (1 - Real.tanh (M_2_SQRTPI * M_SQRT1_2 * (x + 0.044715 * cube x)))) := by
    simp only [GeluFunctor, if_true, h, Real.tanh_neg]
    ring
  rw [hval, abs_neg, abs_of_nonneg (by positivity)]
  nlinarith

/-- The forward at `-x` tends to `0` as `x` tends to infinity, in both modes. -/
theorem tendsto_GeluFunctor_neg (approximate : Bool) :
    Tendsto (fun x => GeluFunctor (-x) approximate) atTop (𝓝 0) := by
  cases approximate
  · have hlim : Tendsto (fun x : ℝ =>
        Real.sqrt 2 / Real.sqrt Real.pi * Real.exp (-(x ^ 2 / 2))) atTop (𝓝 0) := by
      have h1 : Tendsto (fun x : ℝ => x ^ 2 / 2) atTop atTop :=
        (tendsto_pow_atTop two_ne_zero).atTop_div_const (by norm_num)
      have h2 := (Real.tendsto_exp_neg_atTop_nhds_zero.comp h1).const_mul
        (Real.sqrt 2 / Real.sqrt Real.pi)
      simpa using h2
    refine squeeze_zero_norm' ?_ hlim
    filter_upwards [eventually_gt_atTop 0] with x hx
    exact abs_GeluFunctor_neg_exact_le x hx
  · have hlim : Tendsto (fun x : ℝ => x * Real.exp (-x)) atTop (𝓝 0) := by
      simpa using Real.tendsto_pow_mul_exp_neg_atTop_nhds_zero 1
    refine squeeze_zero_norm' ?_ hlim
    filter_upwards [eventually_gt_atTop 0] with x hx
    exact abs_GeluFunctor_neg_approximate_le x hx

/-- C9: in the exact and in the approximate mode, `forward x - x` tends to `0`
as `x` tends to plus infinity and `forward x` tends to `0` as `x` tends to
minus infinity. -/
theorem C9_forward_asymptotics (approximate : Bool) :
    Tendsto (fun x => GeluFunctor x approximate - x) atTop (𝓝 0) ∧
    Tendsto (fun x => GeluFunctor x approximate) atBot (𝓝 0) := by
  have h := tendsto_GeluFunctor_neg approximate
  constructor
  · have hf : (fun x => GeluFunctor x approximate - x) =
        fun x => GeluFunctor (-x) approximate := by
      funext x
      have := GeluFunctor_sub_neg x approximate
      linarith
    rw [hf]
    exact h
  · have h2 := h.comp tendsto_neg_atBot_atTop
    simpa [Function.comp_def] using h2

/-! ## Concrete values in the exact mode (C10) -/

/-- Taylor bound for `exp (-u)` on `[0, 1]`, with four terms and the remainder. -/
theorem exp_neg_taylor (u : ℝ) (h0 : 0 ≤ u) (h1 : u ≤ 1) :
    |Real.exp (-u) - (1 - u + u ^ 2 / 2 - u ^ 3 / 6 + u ^ 4 / 24)| ≤ u ^ 5 / 100 := by
  have h := Real.exp_bound (x := -u) (by rw [abs_neg, abs_of_nonneg h0]; exact h1)
    (n := 5) (by norm_num)
  simp only [Finset.sum_range_succ, Finset.sum_range_zero, Nat.factorial] at h
  rw [abs_neg, abs_of_nonneg h0] at h
  norm_num at h
  have e1 : 1 + -u + u ^ 2 / 2 + (-u) ^ 3 / 6 + (-u) ^ 4 / 24 =
      1 - u + u ^ 2 / 2 - u ^ 3 / 6 + u ^ 4 / 24 := by ring
  rw [e1] at h
  linarith

/-- The argument scaling of the exact gate: `erf (x * M_SQRT1_2)` is `kAlpha`
times the integral of `exp (-(s^2/2))` from `0` to `x`. -/
theorem erf_mul_M_SQRT1_2 (x : ℝ) :
    erf (x * M_SQRT1_2) =
      M_2_SQRTPI * M_SQRT1_2 * ∫ s in (0 : ℝ)..x, Real.exp (-(s ^ 2 / 2)) := by
  have h := intervalIntegral.mul_integral_comp_mul_left (a := 0) (b := x)
    (f := fun t : ℝ => Real.exp (-t ^ 2)) M_SQRT1_2
  have he : ∀ s : ℝ, -(M_SQRT1_2 * s) ^ 2 = -(s ^ 2 / 2) := fun s => by
    rw [mul_pow, M_SQRT1_2_sq]; ring
  simp only [he, mul_zero] at h
  rw [erf, mul_comm x M_SQRT1_2, ← h, M_2_SQRTPI]
  ring

/-- Enclosure of `∫_0^1 exp (-(s^2/2)) ds`. -/
theorem integral_exp_neg_half_sq_bounds :
    (0.85561 : ℝ) < ∫ s in (0 : ℝ)..1, Real.exp (-(s ^ 2 / 2)) ∧
    ∫ s in (0 : ℝ)..1, Real.exp (-(s ^ 2 / 2)) < (0.85568 : ℝ) := by
  have hc : IntervalIntegrable (fun s : ℝ => Real.exp (-(s ^ 2 / 2))) volume 0 1 :=
    (by fun_prop : Continuous (fun s : ℝ => Real.exp (-(s ^ 2 / 2)))).intervalIntegrable 0 1
  have hpt : ∀ s ∈ Icc (0 : ℝ) 1,
      1 - s ^ 2 / 2 + s ^ 4 / 8 - s ^ 6 / 48 + s ^ 8 / 384 - s ^ 10 / 3200 ≤
        Real.exp (-(s ^ 2 / 2)) ∧
      Real.exp (-(s ^ 2 / 2)) ≤
        1 - s ^ 2 / 2 + s ^ 4 / 8 - s ^ 6 / 48 + s ^ 8 / 384 + s ^ 10 / 3200 := by
    intro s hs
    have hu0 : 0 ≤ s ^ 2 / 2 := by positivity
    have hu1 : s ^ 2 / 2 ≤ 1 := by nlinarith [hs.1, hs.2]
    have h := abs_le.1 (exp_neg_taylor (s ^ 2 / 2) hu0 hu1)
    constructor
    · have := h.1
      ring_nf at this ⊢
      linarith
    · have := h.2
      ring_nf at this ⊢
      linarith
  have hlo := intervalIntegral.integral_mono_on (zero_le_one' ℝ)
    ((by fun_prop : Continuous (fun s : ℝ =>
      1 - s ^ 2 / 2 + s ^ 4 / 8 - s ^ 6 / 48 + s ^ 8 / 384 - s ^ 10 / 3200)).intervalIntegrable
        0 1) hc (fun s hs => (hpt s hs).1)
  have hhi := intervalIntegral.integral_mono_on (zero_le_one' ℝ) hc
    ((by fun_prop : Continuous (fun s : ℝ =>
      1 - s ^ 2 / 2 + s ^ 4 / 8 - s ^ 6 / 48 + s ^ 8 / 384 + s ^ 10 / 3200)).intervalIntegrable
        0 1) (fun s hs => (hpt s hs).2)
  simp (disch := (apply Continuous.intervalIntegrable; fun_prop)) only
    [intervalIntegral.integral_add, intervalIntegral.integral_sub, integral_pow,
      intervalIntegral.integral_div, intervalIntegral.integral_const] at hlo hhi
  norm_num at hlo hhi
  constructor
  · linarith
  · linarith

/-- Enclosure of the constant `kAlpha = sqrt (2 / pi)`. -/
theorem kAlpha_bounds :
    (0.79788 : ℝ) < M_2_SQRTPI * M_SQRT1_2 ∧ M_2_SQRTPI * M_SQRT1_2 < (0.79789 : ℝ) := by
  have hp := Real.pi_pos
  have hl := Real.pi_gt_d6
  have hu := Real.pi_lt_d6
  rw [kAlpha_eq]
  constructor
  · rw [Real.lt_sqrt (by norm_num), lt_div_iff₀ hp]
    nlinarith
  · rw [Real.sqrt_lt' (by norm_num), div_lt_iff₀ hp]
    nlinarith

/-- Enclosure of `exp (-1/2)`. -/
theorem exp_neg_half_bounds :
    (0.60653 : ℝ) < Real.exp (-(1 / 2)) ∧ Real.exp (-(1 / 2)) < (0.606531 : ℝ) := by
  have h := Real.exp_bound (x := (-(1 / 2) : ℝ)) (by rw [abs_le]; constructor <;> norm_num)
    (n := 8) (by norm_num)
  simp only [Finset.sum_range_succ, Finset.sum_range_zero, Nat.factorial] at h
  rw [abs_neg, abs_of_pos (by norm_num : (0 : ℝ) < 1 / 2)] at h
  norm_num at h
  have h2 := abs_le.1 h
  constructor
  · linarith [h2.1]
  · linarith [h2.2]

/-- Enclosure of the exact gate at `1`, `erf (1 / sqrt 2)`. -/
theorem erf_M_SQRT1_2_bounds :
    (0.68267 : ℝ) < erf M_SQRT1_2 ∧ erf M_SQRT1_2 < (0.68274 : ℝ) := by
  obtain ⟨hk1, hk2⟩ := kAlpha_bounds
  obtain ⟨hi1, hi2⟩ := integral_exp_neg_half_sq_bounds
  have h := erf_mul_M_SQRT1_2 1
  rw [one_mul] at h
  rw [h]
  have h1 := mul_lt_mul'' hk1 hi1 (by norm_num) (by norm_num)
  have h2 := mul_lt_mul'' hk2 hi2 (by linarith) (by linarith)
  constructor
  · refine lt_trans ?_ h1
    norm_num
  · refine lt_trans h2 ?_
    norm_num

/-- C10: in the exact mode `forward 0 = 0`, `forward 1` is within `1e-4` of
`0.8413`, and `backward (x = 1, g = 1)` is within `1e-4` of `1.0833`. -/
theorem C10_exact_concrete_values :
    GeluFunctor 0 false = 0 ∧
    |GeluFunctor 1 false - 0.8413| < 0.0001 ∧
    |GeluGradFunctor 1 1 false - 1.0833| < 0.0001 := by
  obtain ⟨he1, he2⟩ := erf_M_SQRT1_2_bounds
  obtain ⟨hk1, hk2⟩ := kAlpha_bounds
  obtain ⟨hx1, hx2⟩ := exp_neg_half_bounds
  refine ⟨by simp [GeluFunctor], ?_, ?_⟩
  · simp only [GeluFunctor, Bool.false_eq_true, if_false, one_mul]
    rw [abs_lt]
    constructor <;> norm_num <;> linarith
  · have hs : (-0.5 : ℝ) * square 1 = -(1 / 2) := by rw [square]; norm_num
    have hc : 0.5 * M_2_SQRTPI * M_SQRT1_2 = 0.5 * (M_2_SQRTPI * M_SQRT1_2) := by ring
    have h1 := mul_lt_mul'' hk1 hx1 (by norm_num) (by norm_num)
    have h2 := mul_lt_mul'' hk2 hx2 (by linarith) (by linarith)
    simp only [GeluGradFunctor, Bool.false_eq_true, if_false, hs, hc, one_mul, mul_one]
    have e : 0.5 * (M_2_SQRTPI * M_SQRT1_2) * Real.exp (-(1 / 2)) =
        0.5 * (M_2_SQRTPI * M_SQRT1_2 * Real.exp (-(1 / 2))) := by ring
    rw [e]
    generalize M_2_SQRTPI * M_SQRT1_2 * Real.exp (-(1 / 2)) = P at h1 h2 ⊢
    rw [abs_lt]
    constructor <;> norm_num at h1 h2 ⊢ <;> linarith

/-! ## Reflection, linearity and bounds (C15 - C18, C14) -/

/-- The error function takes values in `[-1, 1]`. -/
theorem erf_bounds (y : ℝ) : -1 ≤ erf y ∧ erf y ≤ 1 := by
  have hp := sqrt_pi_pos
  have h1 : 0 ≤ 1 + erf y := by
    rw [one_add_erf]
    exact mul_nonneg (by positivity) (gaussTail_nonneg _)
  have h2 : 0 ≤ 1 + erf (-y) := by
    rw [one_add_erf]
    exact mul_nonneg (by positivity) (gaussTail_nonneg _)
  rw [erf_neg] at h2
  constructor <;> linarith

/-- The hyperbolic tangent takes values in `[-1, 1]`. -/
theorem tanh_bounds (u : ℝ) : -1 ≤ Real.tanh u ∧ Real.tanh u ≤ 1 := by
  have h1 := (one_sub_tanh_bounds u).1
  have h2 := (one_sub_tanh_bounds (-u)).1
  rw [Real.tanh_neg] at h2
  constructor <;> linarith

/-- The forward is the input times a gate in `[0, 1]`, in both modes. -/
theorem GeluFunctor_eq_mul_gate (x : ℝ) (approximate : Bool) :
    ∃ G : ℝ, 0 ≤ G ∧ G ≤ 1 ∧ GeluFunctor x approximate = x * G := by
  cases approximate
  · obtain ⟨h1, h2⟩ := erf_bounds (x * M_SQRT1_2)
    refine ⟨0.5 * (1 + erf (x * M_SQRT1_2)), by linarith, by linarith, ?_⟩
    simp only [GeluFunctor, Bool.false_eq_true, if_false]
    ring
  · obtain ⟨h1, h2⟩ := tanh_bounds (M_2_SQRTPI * M_SQRT1_2 * (x + 0.044715 * cube x))
    refine ⟨0.5 * (1 + Real.tanh (M_2_SQRTPI * M_SQRT1_2 * (x + 0.044715 * cube x))),
      by linarith, by linarith, ?_⟩
    simp only [GeluFunctor, if_true]
    ring

/-- The forward is bounded by its input in absolute value, in both modes. -/
theorem abs_GeluFunctor_le (x : ℝ) (approximate : Bool) :
    |GeluFunctor x approximate| ≤ |x| := by
  obtain ⟨G, h0, h1, h⟩ := GeluFunctor_eq_mul_gate x approximate
  rw [h, abs_mul, abs_of_nonneg h0]
  exact mul_le_of_le_one_right (abs_nonneg x) h1

theorem erf_zero : erf 0 = 0 := by
  simp [erf]

/-- C15: reflection identity of the forward transform.  For every real `x` and
in both modes, `GeluFunctor x - GeluFunctor (-x) = x`. -/
theorem C15_forward_reflection (x : ℝ) (approximate : Bool) :
    GeluFunctor x approximate - GeluFunctor (-x) approximate = x :=
  GeluFunctor_sub_neg x approximate

/-- C16, amended: with arithmetic read over the real numbers, the backward
transform is linear in the upstream gradient, in both modes; a zero upstream
gradient gives a zero input gradient, and
`GeluGradFunctor x g = g * GeluGradFunctor x 1`. -/
theorem C16_backward_linear (x g g1 g2 a b : ℝ) (approximate : Bool) :
    GeluGradFunctor x (a * g1 + b * g2) approximate =
      a * GeluGradFunctor x g1 approximate + b * GeluGradFunctor x g2 approximate ∧
    GeluGradFunctor x 0 approximate = 0 ∧
    GeluGradFunctor x g approximate = g * GeluGradFunctor x 1 approximate := by
  cases approximate
  · simp only [GeluGradFunctor, Bool.false_eq_true, if_false]
    refine ⟨by ring, by ring, by ring⟩
  · simp only [GeluGradFunctor, if_true]
    refine ⟨by ring, by ring, by ring⟩

/-- C17: sign and magnitude bound of the forward transform.  In both modes
`0 ≤ forward x ≤ x` when `x ≥ 0`, `x ≤ forward x ≤ 0` when `x ≤ 0`, and
`|forward x| ≤ |x|`. -/
theorem C17_forward_between (x : ℝ) (approximate : Bool) :
    (0 ≤ x → 0 ≤ GeluFunctor x approximate ∧ GeluFunctor x approximate ≤ x) ∧
    (x ≤ 0 → x ≤ GeluFunctor x approximate ∧ GeluFunctor x approximate ≤ 0) ∧
    |GeluFunctor x approximate| ≤ |x| := by
  obtain ⟨G, h0, h1, h⟩ := GeluFunctor_eq_mul_gate x approximate
  refine ⟨fun hx => ?_, fun hx => ?_, abs_GeluFunctor_le x approximate⟩
  · rw [h]
    exact ⟨mul_nonneg hx h0, mul_le_of_le_one_right hx h1⟩
  · rw [h]
    constructor
    · nlinarith
    · exact mul_nonpos_of_nonpos_of_nonneg hx h0

/-- C17 at `x = 1` in the exact mode and at `x = -1` in the approximate mode. -/
theorem C17_forward_between_witness :
    ((0 : ℝ) ≤ 1 ∧ 0 ≤ GeluFunctor 1 false ∧ GeluFunctor 1 false ≤ 1) ∧
    ((-1 : ℝ) ≤ 0 ∧ -1 ≤ GeluFunctor (-1) true ∧ GeluFunctor (-1) true ≤ 0) :=
  ⟨⟨zero_le_one, (C17_forward_between 1 false).1 zero_le_one⟩,
    ⟨by norm_num, (C17_forward_between (-1) true).2.1 (by norm_num)⟩⟩

/-- C18, amended: reflection identity of the backward transform, with
arithmetic read over the real numbers.  For every real `x` and `g` and in both
modes, `GeluGradFunctor x g + GeluGradFunctor (-x) g = g`, and
`GeluGradFunctor 0 g = g / 2`. -/
theorem C18_backward_reflection (x g : ℝ) (approximate : Bool) :
    GeluGradFunctor x g approximate + GeluGradFunctor (-x) g approximate = g ∧
    GeluGradFunctor 0 g approximate = g / 2 := by
  have hs : square (-x) = square x := by rw [square, square]; ring
  cases approximate
  · constructor
    · simp only [GeluGradFunctor, Bool.false_eq_true, if_false, neg_mul, erf_neg, hs]
      ring
    · simp only [GeluGradFunctor, Bool.false_eq_true, if_false, zero_mul, erf_zero, mul_zero]
      ring
  · constructor
    · have h : M_2_SQRTPI * M_SQRT1_2 * (0.044715 * cube (-x) + -x) =
          -(M_2_SQRTPI * M_SQRT1_2 * (0.044715 * cube x + x)) := by
        rw [cube_neg]; ring
      have hy : ∀ t : ℝ, square (-t) = square t := fun t => by rw [square, square]; ring
      simp only [GeluGradFunctor, if_true, h, Real.tanh_neg, hy]
      ring
    · have h0 : M_2_SQRTPI * M_SQRT1_2 * (0.044715 * cube 0 + 0) = 0 := by
        rw [cube]; ring
      simp only [GeluGradFunctor, if_true, h0, Real.tanh_zero]
      ring

/-- C14: the approximate forward converges to the exact forward as `|x|` tends
to `0`: for every `eps > 0` there is `delta > 0` such that `|x| < delta` gives
`|GeluFunctor x true - GeluFunctor x false| < eps`. -/
theorem C14_modes_agree_near_zero (eps : ℝ) (heps : 0 < eps) :
    ∃ delta : ℝ, 0 < delta ∧ ∀ x : ℝ, |x| < delta →
      |GeluFunctor x true - GeluFunctor x false| < eps := by
  refine ⟨eps / 2, by positivity, fun x hx => ?_⟩
  have h1 := abs_GeluFunctor_le x true
  have h2 := abs_GeluFunctor_le x false
  have h3 := abs_sub (GeluFunctor x true) (GeluFunctor x false)
  linarith

/-- C14 at `eps = 1`, with the `delta` it gives used at `x = 0`. -/
theorem C14_modes_agree_near_zero_witness :
    (0 : ℝ) < 1 ∧ |GeluFunctor 0 true - GeluFunctor 0 false| < 1 :=
  ⟨one_pos, by
    obtain ⟨delta, hd, h⟩ := C14_modes_agree_near_zero 1 one_pos
    exact h 0 (by simpa using hd)⟩

/-! ## Concrete values in the approximate mode (C11 - C13) -/

/-- The hyperbolic tangent in terms of the exponential. -/
theorem tanh_eq_exp (u : ℝ) :
    Real.tanh u = (Real.exp u ^ 2 - 1) / (Real.exp u ^ 2 + 1) := by
  have he : 0 < Real.exp u := Real.exp_pos u
  rw [Real.tanh_eq_sinh_div_cosh, Real.sinh_eq, Real.cosh_eq, Real.exp_neg]
  field_simp
  ring

/-- Enclosure of `exp (kAlpha * 1.044715)`, the exponential of the argument of
the approximate gate at `x = 1`. -/
theorem exp_kAlpha_arg_bounds :
    (2.30149 : ℝ) < Real.exp (M_2_SQRTPI * M_SQRT1_2 * 1.044715) ∧
    Real.exp (M_2_SQRTPI * M_SQRT1_2 * 1.044715) < (2.30152 : ℝ) := by
  obtain ⟨hk1, hk2⟩ := kAlpha_bounds
  have hu1 : (0.833557 : ℝ) ≤ M_2_SQRTPI * M_SQRT1_2 * 1.044715 := by linarith
  have hu2 : M_2_SQRTPI * M_SQRT1_2 * 1.044715 ≤ (0.833568 : ℝ) := by linarith
  have hlo := Real.exp_bound (x := (0.833557 : ℝ))
    (by rw [abs_le]; constructor <;> norm_num) (n := 10) (by norm_num)
  have hhi := Real.exp_bound (x := (0.833568 : ℝ))
    (by rw [abs_le]; constructor <;> norm_num) (n := 10) (by norm_num)
  simp only [Finset.sum_range_succ, Finset.sum_range_zero, Nat.factorial] at hlo hhi
  rw [abs_of_pos (by norm_num : (0 : ℝ) < 0.833557)] at hlo
  rw [abs_of_pos (by norm_num : (0 : ℝ) < 0.833568)] at hhi
  norm_num at hlo hhi
  have h1 := (abs_le.1 hlo).1
  have h2 := (abs_le.1 hhi).2
  have h3 := Real.exp_le_exp.2 hu1
  have h4 := Real.exp_le_exp.2 hu2
  constructor
  · refine lt_of_lt_of_le ?_ h3
    linarith
  · refine lt_of_le_of_lt h4 ?_
    linarith

/-- Enclosure of the approximate gate argument at `x = 1`,
`tanh (kAlpha * 1.044715)`. -/
theorem tanh_kAlpha_arg_bounds :
    (0.68237 : ℝ) < Real.tanh (M_2_SQRTPI * M_SQRT1_2 * 1.044715) ∧
    Real.tanh (M_2_SQRTPI * M_SQRT1_2 * 1.044715) < (0.68240 : ℝ) := by
  obtain ⟨h1, h2⟩ := exp_kAlpha_arg_bounds
  rw [tanh_eq_exp]
  generalize Real.exp (M_2_SQRTPI * M_SQRT1_2 * 1.044715) = E at h1 h2
  have hE : 0 < E := by linarith
  have hlo : (2.30149 : ℝ) ^ 2 < E ^ 2 := by nlinarith
  have hhi : E ^ 2 < (2.30152 : ℝ) ^ 2 := by nlinarith
  have hpos : 0 < E ^ 2 + 1 := by positivity
  constructor
  · rw [lt_div_iff₀ hpos]
    norm_num at hlo ⊢
    linarith
  · rw [div_lt_iff₀ hpos]
    norm_num at hhi ⊢
    linarith

/-- The argument of the approximate gate at `x = 1`, as the forward writes it. -/
theorem approximate_arg_one :
    M_2_SQRTPI * M_SQRT1_2 * (1 + 0.044715 * cube 1) = M_2_SQRTPI * M_SQRT1_2 * 1.044715 := by
  rw [cube]; norm_num

/-- Enclosure of the approximate forward at `x = 1`. -/
theorem GeluFunctor_one_approximate_bounds :
    (0.841185 : ℝ) < GeluFunctor 1 true ∧ GeluFunctor 1 true < (0.8412 : ℝ) := by
  obtain ⟨h1, h2⟩ := tanh_kAlpha_arg_bounds
  simp only [GeluFunctor, if_true, approximate_arg_one, one_mul]
  constructor <;> norm_num <;> linarith

/-- Enclosure of the exact forward at `x = 1`. -/
theorem GeluFunctor_one_exact_bounds :
    (0.841335 : ℝ) < GeluFunctor 1 false ∧ GeluFunctor 1 false < (0.84137 : ℝ) := by
  obtain ⟨h1, h2⟩ := erf_M_SQRT1_2_bounds
  simp only [GeluFunctor, Bool.false_eq_true, if_false, one_mul]
  constructor <;> norm_num <;> linarith

/-- Enclosure of the approximate backward at `x = 1`, `g = 1`. -/
theorem GeluGradFunctor_one_one_approximate_bounds :
    (1.08294 : ℝ) < GeluGradFunctor 1 1 true ∧ GeluGradFunctor 1 1 true < (1.08299 : ℝ) := by
  obtain ⟨hy1, hy2⟩ := tanh_kAlpha_arg_bounds
  obtain ⟨hk1, hk2⟩ := kAlpha_bounds
  have harg : M_2_SQRTPI * M_SQRT1_2 * (0.044715 * cube 1 + 1) =
      M_2_SQRTPI * M_SQRT1_2 * 1.044715 := by
    rw [cube]; norm_num
  have hsq : square 1 = 1 := by rw [square]; norm_num
  simp only [GeluGradFunctor, if_true, harg, hsq, square, one_mul, mul_one]
  generalize Real.tanh (M_2_SQRTPI * M_SQRT1_2 * 1.044715) = y at hy1 hy2 ⊢
  generalize M_2_SQRTPI * M_SQRT1_2 = k at hk1 hk2 ⊢
  have hy2lo : (0.68237 : ℝ) * 0.68237 < y * y := by nlinarith
  have hy2hi : y * y < (0.68240 : ℝ) * 0.68240 := by nlinarith
  have hg1 : (1 - 0.68240 * 0.68240 : ℝ) < 1 - y * y := by linarith
  have hg2 : 1 - y * y < (1 - 0.68237 * 0.68237 : ℝ) := by linarith
  have hp1 := mul_lt_mul'' hg1 hk1 (by norm_num) (by norm_num)
  have hp2 := mul_lt_mul'' hg2 hk2 (by nlinarith) (by linarith)
  have e : 0.5 * (1 + y + (1 - y * y) * (k + k * 0.044715 * 3)) =
      0.5 * (1 + y + 1.134145 * ((1 - y * y) * k)) := by ring
  rw [e]
  generalize (1 - y * y) * k = P at hp1 hp2 ⊢
  constructor <;> norm_num at hp1 hp2 ⊢ <;> linarith

/-- Enclosure of the exact backward at `x = 1`, `g = 1`. -/
theorem GeluGradFunctor_one_one_exact_bounds :
    (1.0833 : ℝ) < GeluGradFunctor 1 1 false ∧ GeluGradFunctor 1 1 false < (1.08335 : ℝ) := by
  obtain ⟨he1, he2⟩ := erf_M_SQRT1_2_bounds
  obtain ⟨hk1, hk2⟩ := kAlpha_bounds
  obtain ⟨hx1, hx2⟩ := exp_neg_half_bounds
  have hs : (-0.5 : ℝ) * square 1 = -(1 / 2) := by rw [square]; norm_num
  have hc : 0.5 * M_2_SQRTPI * M_SQRT1_2 = 0.5 * (M_2_SQRTPI * M_SQRT1_2) := by ring
  have h1 := mul_lt_mul'' hk1 hx1 (by norm_num) (by norm_num)
  have h2 := mul_lt_mul'' hk2 hx2 (by linarith) (by linarith)
  simp only [GeluGradFunctor, Bool.false_eq_true, if_false, hs, hc, one_mul, mul_one]
  have e : 0.5 * (M_2_SQRTPI * M_SQRT1_2) * Real.exp (-(1 / 2)) =
      0.5 * (M_2_SQRTPI * M_SQRT1_2 * Real.exp (-(1 / 2))) := by ring
  rw [e]
  generalize M_2_SQRTPI * M_SQRT1_2 * Real.exp (-(1 / 2)) = P at h1 h2 ⊢
  constructor <;> norm_num at h1 h2 ⊢ <;> linarith

/-- C11, as stated, fails: the approximate backward at `x = 1`, `g = 1` is not
within `1e-4` of `1.0825` (its value is about `1.08296`). -/
theorem C11_approximate_backward_not_near_10825 :
    ¬ (|GeluGradFunctor 1 1 true - 1.0825| ≤ 0.0001) := by
  obtain ⟨h1, _⟩ := GeluGradFunctor_one_one_approximate_bounds
  intro h
  have h2 := (abs_le.1 h).2
  norm_num at h1 h2
  linarith

/-- C11, amended: in the approximate mode `backward (x = 1, g = 1)` is within
`1e-4` of `1.0830`; its distance from `1.0825` is more than `1e-4` and less
than `5e-4`. -/
theorem C11_approximate_backward_value :
    |GeluGradFunctor 1 1 true - 1.0830| < 0.0001 ∧
    0.0001 < |GeluGradFunctor 1 1 true - 1.0825| ∧
    |GeluGradFunctor 1 1 true - 1.0825| < 0.0005 := by
  obtain ⟨h1, h2⟩ := GeluGradFunctor_one_one_approximate_bounds
  have hpos : 0 < GeluGradFunctor 1 1 true - 1.0825 := by norm_num at h1 ⊢; linarith
  rw [abs_of_pos hpos, abs_lt]
  norm_num at h1 h2 ⊢
  refine ⟨⟨by linarith, by linarith⟩, by linarith, by linarith⟩

/-- C12: in the approximate mode `forward 1` is within `1e-4` of `0.8412`, and
it differs from the exact `forward 1` by less than `1e-3`. -/
theorem C12_approximate_forward_value :
    |GeluFunctor 1 true - 0.8412| < 0.0001 ∧
    |GeluFunctor 1 true - GeluFunctor 1 false| < 0.001 := by
  obtain ⟨ha1, ha2⟩ := GeluFunctor_one_approximate_bounds
  obtain ⟨he1, he2⟩ := GeluFunctor_one_exact_bounds
  rw [abs_lt, abs_lt]
  norm_num at ha1 ha2 he1 he2 ⊢
  refine ⟨⟨by linarith, by linarith⟩, by linarith, by linarith⟩

/-- C13: the mode flag must match between forward and backward.  At `x = 1`
the approximate backward is not the derivative of the exact forward, and the
exact backward is not the derivative of the approximate forward. -/
theorem C13_mode_mismatch :
    GeluGradFunctor 1 1 true ≠ deriv (fun t => GeluFunctor t false) 1 ∧
    GeluGradFunctor 1 1 false ≠ deriv (fun t => GeluFunctor t true) 1 := by
  obtain ⟨_, ha⟩ := GeluGradFunctor_one_one_approximate_bounds
  obtain ⟨he, _⟩ := GeluGradFunctor_one_one_exact_bounds
  rw [(hasDerivAt_GeluFunctor_exact 1).deriv, (hasDerivAt_GeluFunctor_approximate 1).deriv]
  norm_num at ha he
  constructor
  · exact ne_of_lt (by linarith)
  · exact ne_of_gt (by linarith)

/-! ## The backward functor under overflow of the element type (C16, C18) -/

theorem FloatVal.ofReal_finite (M r : ℝ) (h1 : r ≤ M) (h2 : -M ≤ r) :
    FloatVal.ofReal M r = FloatVal.finite r := by
  rw [FloatVal.ofReal, if_neg (not_lt.2 h1), if_neg (not_lt.2 h2)]

theorem FloatVal.ofReal_posInf (M r : ℝ) (h : M < r) :
    FloatVal.ofReal M r = FloatVal.posInf := by
  rw [FloatVal.ofReal, if_pos h]

theorem FloatVal.mul_nan_right (M : ℝ) (a : FloatVal) :
    FloatVal.mul M a FloatVal.nan = FloatVal.nan := by
  cases a <;> rfl

theorem FloatVal.add_nan_right (M : ℝ) (a : FloatVal) :
    FloatVal.add M a FloatVal.nan = FloatVal.nan := by
  cases a <;> rfl

theorem FloatVal.mul_finite_finite (M a b : ℝ) (h1 : a * b ≤ M) (h2 : -M ≤ a * b) :
    FloatVal.mul M (FloatVal.finite a) (FloatVal.finite b) = FloatVal.finite (a * b) := by
  simp only [FloatVal.mul]
  exact FloatVal.ofReal_finite M _ h1 h2

theorem FloatVal.mul_pos_posInf (M a : ℝ) (h : 0 < a) :
    FloatVal.mul M (FloatVal.finite a) FloatVal.posInf = FloatVal.posInf := by
  simp [FloatVal.mul, FloatVal.mulPosInf, h.ne', h]

theorem FloatVal.mul_pos_negInf (M a : ℝ) (h : 0 < a) :
    FloatVal.mul M (FloatVal.finite a) FloatVal.negInf = FloatVal.negInf := by
  simp [FloatVal.mul, FloatVal.mulNegInf, h.ne', h]

theorem FloatVal.mul_posInf_pos (M a : ℝ) (h : 0 < a) :
    FloatVal.mul M FloatVal.posInf (FloatVal.finite a) = FloatVal.posInf := by
  simp [FloatVal.mul, FloatVal.mulPosInf, h.ne', h]

theorem FloatVal.mul_posInf_neg (M a : ℝ) (h : a < 0) :
    FloatVal.mul M FloatVal.posInf (FloatVal.finite a) = FloatVal.negInf := by
  simp [FloatVal.mul, FloatVal.mulPosInf, h.ne, not_lt.2 h.le]

theorem FloatVal.mul_zero_posInf (M : ℝ) :
    FloatVal.mul M (FloatVal.finite 0) FloatVal.posInf = FloatVal.nan := by
  simp [FloatVal.mul, FloatVal.mulPosInf]

/-- Once `x.square()` overflows, the approximate backward is NaN for every
upstream gradient. -/
theorem GeluGradFunctorT_approximate_overflow (M r : ℝ) (dout : FloatVal)
    (hM : 1 ≤ M) (hr : |r| ≤ M) (hsq : M < r * r) :
    GeluGradFunctorT M (FloatVal.finite r) dout true = FloatVal.nan := by
  obtain ⟨hk1, hk2⟩ := kAlpha_bounds
  have hkpos : 0 < M_2_SQRTPI * M_SQRT1_2 := by linarith
  have hr0 : r ≠ 0 := by
    rintro rfl
    simp at hsq
    linarith
  obtain ⟨hr1, hr2⟩ := abs_le.1 hr
  have hsquare : FloatVal.square M (FloatVal.finite r) = FloatVal.posInf := by
    simp only [FloatVal.square, FloatVal.mul]
    exact FloatVal.ofReal_posInf M _ hsq
  have hkB : FloatVal.mul M (FloatVal.mul M (FloatVal.finite (M_2_SQRTPI * M_SQRT1_2))
      (FloatVal.finite 0.044715)) (FloatVal.finite 3) =
      FloatVal.finite (M_2_SQRTPI * M_SQRT1_2 * 0.044715 * 3) := by
    rw [FloatVal.mul_finite_finite M _ _ (by nlinarith) (by nlinarith),
      FloatVal.mul_finite_finite M _ _ (by nlinarith) (by nlinarith)]
  have hsum : FloatVal.add M (FloatVal.finite (M_2_SQRTPI * M_SQRT1_2))
      (FloatVal.mul M (FloatVal.finite (M_2_SQRTPI * M_SQRT1_2 * 0.044715 * 3))
        FloatVal.posInf) = FloatVal.posInf := by
    rw [FloatVal.mul_pos_posInf M _ (by nlinarith)]
    rfl
  have hdiff : ∀ s : ℝ, s = 1 ∨ s = -1 →
      FloatVal.sub M (FloatVal.finite r)
        (FloatVal.mul M (FloatVal.finite r) (FloatVal.square M (FloatVal.finite s))) =
      FloatVal.finite 0 := by
    intro s hs
    have hss : s * s = 1 := by rcases hs with rfl | rfl <;> norm_num
    rw [FloatVal.square, FloatVal.mul_finite_finite M s s (by linarith) (by linarith), hss,
      FloatVal.mul_finite_finite M r 1 (by linarith) (by linarith), mul_one]
    simp only [FloatVal.sub, FloatVal.neg, FloatVal.add, add_neg_cancel]
    exact FloatVal.ofReal_finite M 0 (by linarith) (by linarith)
  have hy : ∃ s : ℝ, (s = 1 ∨ s = -1) ∧
      FloatVal.tanh (FloatVal.mul M (FloatVal.finite (M_2_SQRTPI * M_SQRT1_2))
        (FloatVal.add M (FloatVal.mul M (FloatVal.finite 0.044715)
          (FloatVal.cube M (FloatVal.finite r))) (FloatVal.finite r))) = FloatVal.finite s := by
    rw [FloatVal.cube, ← FloatVal.square, hsquare]
    rcases lt_or_gt_of_ne hr0 with hneg | hpos
    · refine ⟨-1, Or.inr rfl, ?_⟩
      rw [FloatVal.mul_posInf_neg M r hneg, FloatVal.mul_pos_negInf M _ (by norm_num)]
      simp only [FloatVal.add]
      rw [FloatVal.mul_pos_negInf M _ hkpos]
      rfl
    · refine ⟨1, Or.inl rfl, ?_⟩
      rw [FloatVal.mul_posInf_pos M r hpos, FloatVal.mul_pos_posInf M _ (by norm_num)]
      simp only [FloatVal.add]
      rw [FloatVal.mul_pos_posInf M _ hkpos]
      rfl
  obtain ⟨s, hs, hys⟩ := hy
  simp only [GeluGradFunctorT, if_true, hkB, hsquare, hsum, hys, hdiff s hs,
    FloatVal.mul_zero_posInf, FloatVal.add_nan_right, FloatVal.mul_nan_right]

/-- The largest finite `double` lies between `10^200` and `10^400`. -/
theorem DBL_MAX_bounds : (1 : ℝ) ≤ DBL_MAX ∧ (10 : ℝ) ^ 200 ≤ DBL_MAX ∧
    DBL_MAX < (10 : ℝ) ^ 200 * (10 : ℝ) ^ 200 := by
  rw [DBL_MAX]
  refine ⟨by norm_num, by norm_num, by norm_num⟩

/-- In `double`, at `x = 1e200` and at `x = -1e200`, the approximate backward is
NaN for every upstream gradient. -/
theorem GeluGradFunctorT_double_overflow (dout : FloatVal) :
    GeluGradFunctorT DBL_MAX (FloatVal.finite (10 ^ 200)) dout true = FloatVal.nan ∧
    GeluGradFunctorT DBL_MAX (FloatVal.finite (-10 ^ 200)) dout true = FloatVal.nan := by
  obtain ⟨h1, h2, h3⟩ := DBL_MAX_bounds
  constructor
  · exact GeluGradFunctorT_approximate_overflow DBL_MAX (10 ^ 200) dout h1
      (by rw [abs_of_pos (by positivity)]; exact h2) h3
  · exact GeluGradFunctorT_approximate_overflow DBL_MAX (-10 ^ 200) dout h1
      (by rw [abs_neg, abs_of_pos (by positivity)]; exact h2) (by rw [neg_mul_neg]; exact h3)

/-- C16, as stated, fails in the element type `double`: at `x = 1e200` in the
approximate mode a zero upstream gradient gives NaN, not a zero input
gradient. -/
theorem C16_zero_gradient_gives_nan :
    GeluGradFunctorT DBL_MAX (FloatVal.finite (10 ^ 200)) (FloatVal.finite 0) true =
      FloatVal.nan ∧
    GeluGradFunctorT DBL_MAX (FloatVal.finite (10 ^ 200)) (FloatVal.finite 0) true ≠
      FloatVal.finite 0 := by
  have h := (GeluGradFunctorT_double_overflow (FloatVal.finite 0)).1
  refine ⟨h, ?_⟩
  rw [h]
  exact fun hne => FloatVal.noConfusion hne

/-- C18, as stated, fails in the element type `double`: at `x = 1e200`, `g = 1`
in the approximate mode the backward values at `x` and `-x` are NaN, and their
sum is NaN, not `g`. -/
theorem C18_reflection_gives_nan :
    FloatVal.add DBL_MAX
      (GeluGradFunctorT DBL_MAX (FloatVal.finite (10 ^ 200)) (FloatVal.finite 1) true)
      (GeluGradFunctorT DBL_MAX (FloatVal.finite (-10 ^ 200)) (FloatVal.finite 1) true) =
      FloatVal.nan ∧
    FloatVal.add DBL_MAX
      (GeluGradFunctorT DBL_MAX (FloatVal.finite (10 ^ 200)) (FloatVal.finite 1) true)
      (GeluGradFunctorT DBL_MAX (FloatVal.finite (-10 ^ 200)) (FloatVal.finite 1) true) ≠
      FloatVal.finite 1 := by
  obtain ⟨h1, h2⟩ := GeluGradFunctorT_double_overflow (FloatVal.finite 1)
  rw [h1, h2]
  refine ⟨rfl, ?_⟩
  have h : FloatVal.add DBL_MAX FloatVal.nan FloatVal.nan = FloatVal.nan := rfl
  rw [h]
  exact fun hne => FloatVal.noConfusion hne

/-! ## Agreement of the two readings when nothing overflows -/

theorem FloatVal.mul_ff (M a b : ℝ) (h : |a * b| ≤ M) :
    FloatVal.mul M (FloatVal.finite a) (FloatVal.finite b) = FloatVal.finite (a * b) :=
  FloatVal.mul_finite_finite M a b (abs_le.1 h).2 (abs_le.1 h).1

theorem FloatVal.add_ff (M a b : ℝ) (h : |a + b| ≤ M) :
    FloatVal.add M (FloatVal.finite a) (FloatVal.finite b) = FloatVal.finite (a + b) := by
  simp only [FloatVal.add]
  exact FloatVal.ofReal_finite M _ (abs_le.1 h).2 (abs_le.1 h).1

theorem abs_mul_le_of {a b A B : ℝ} (ha : |a| ≤ A) (hb : |b| ≤ B) : |a * b| ≤ A * B := by
  rw [abs_mul]
  exact mul_le_mul ha hb (abs_nonneg b) (le_trans (abs_nonneg a) ha)

theorem abs_add_le_of {a b A B : ℝ} (ha : |a| ≤ A) (hb : |b| ≤ B) : |a + b| ≤ A + B :=
  le_trans (abs_add a b) (add_le_add ha hb)

/-- For inputs of magnitude at most `1` and a largest finite value of at least
`16`, no operation of the backward functor overflows and the result in `T` is
the finite value of the real reading. -/
theorem GeluGradFunctorT_eq_finite (M x dout : ℝ) (approximate : Bool)
    (hM : 16 ≤ M) (hx : |x| ≤ 1) (hd : |dout| ≤ 1) :
    GeluGradFunctorT M (FloatVal.finite x) (FloatVal.finite dout) approximate =
      FloatVal.finite (GeluGradFunctor x dout approximate) := by
  obtain ⟨hk1, hk2⟩ := kAlpha_bounds
  have hk : |M_2_SQRTPI * M_SQRT1_2| ≤ 1 := by
    rw [abs_le]; constructor <;> linarith
  have hc : |(0.044715 : ℝ)| ≤ 1 := by norm_num [abs_le]
  have h3 : |(3 : ℝ)| ≤ 3 := by norm_num [abs_le]
  have h1 : |(1 : ℝ)| ≤ 1 := by norm_num
  have hh : |(0.5 : ℝ)| ≤ 1 := by norm_num [abs_le]
  have hxx := abs_mul_le_of hx hx
  have L : ∀ {v B : ℝ}, |v| ≤ B → B ≤ 16 → |v| ≤ M := fun h hB => (h.trans hB).trans hM
  cases approximate
  · -- exact branch
    have hMs : |M_SQRT1_2| ≤ 1 := by
      have h := M_SQRT1_2_sq
      rw [abs_le]; constructor <;> nlinarith
    have he : |erf (x * M_SQRT1_2)| ≤ 1 := by
      obtain ⟨e1, e2⟩ := erf_bounds (x * M_SQRT1_2)
      rw [abs_le]; exact ⟨e1, e2⟩
    have hcoef : |0.5 * M_2_SQRTPI * M_SQRT1_2| ≤ 1 := by
      have e : 0.5 * M_2_SQRTPI * M_SQRT1_2 = 0.5 * (M_2_SQRTPI * M_SQRT1_2) := by ring
      rw [e, abs_le]; constructor <;> linarith
    have hexp : |Real.exp (-0.5 * (x * x))| ≤ 1 := by
      rw [abs_of_pos (Real.exp_pos _)]
      apply Real.exp_le_one_iff.2
      nlinarith [mul_self_nonneg x]
    have hnh : |(-0.5 : ℝ)| ≤ 1 := by norm_num [abs_le]
    have b1 := abs_mul_le_of hx hMs
    have b2 := abs_add_le_of h1 he
    have b3 := abs_mul_le_of hh b2
    have b4 := abs_mul_le_of hcoef hx
    have b5 := abs_mul_le_of hnh hxx
    have b6 := abs_mul_le_of b4 hexp
    have b7 := abs_add_le_of b3 b6
    have b8 := abs_mul_le_of hd b7
    simp only [GeluGradFunctorT, GeluGradFunctor, Bool.false_eq_true, if_false,
      FloatVal.square, FloatVal.neg, square]
    rw [FloatVal.mul_ff M _ _ (L b1 (by norm_num))]
    simp only [FloatVal.erf]
    rw [FloatVal.add_ff M _ _ (L b2 (by norm_num)), FloatVal.mul_ff M _ _ (L b3 (by norm_num)),
      FloatVal.mul_ff M _ _ (L b4 (by norm_num)), FloatVal.mul_ff M _ _ (L hxx (by norm_num)),
      FloatVal.mul_ff M _ _ (L b5 (by norm_num))]
    simp only [FloatVal.exp]
    rw [FloatVal.ofReal_finite M _ (abs_le.1 (L hexp (by norm_num))).2
        (abs_le.1 (L hexp (by norm_num))).1,
      FloatVal.mul_ff M _ _ (L b6 (by norm_num)), FloatVal.add_ff M _ _ (L b7 (by norm_num)),
      FloatVal.mul_ff M _ _ (L b8 (by norm_num))]
  · -- approximate branch
    have ht : ∀ u : ℝ, |Real.tanh u| ≤ 1 := fun u => by
      obtain ⟨t1, t2⟩ := tanh_bounds u
      rw [abs_le]; exact ⟨t1, t2⟩
    have hxxx := abs_mul_le_of hxx hx
    have c1 := abs_mul_le_of hk hc
    have c2 := abs_mul_le_of c1 h3
    have c3 := abs_mul_le_of hc hxxx
    have c4 := abs_add_le_of c3 hx
    have c5 := abs_mul_le_of hk c4
    have hy := ht (M_2_SQRTPI * M_SQRT1_2 * (0.044715 * (x * x * x) + x))
    have c6 := abs_mul_le_of hy hy
    have c7 := abs_mul_le_of hx c6
    have c7n : |-(x * (Real.tanh (M_2_SQRTPI * M_SQRT1_2 * (0.044715 * (x * x * x) + x)) *
        Real.tanh (M_2_SQRTPI * M_SQRT1_2 * (0.044715 * (x * x * x) + x))))| ≤ 1 * (1 * 1) := by
      rw [abs_neg]; exact c7
    have c8 := abs_add_le_of hx c7n
    have c9 := abs_mul_le_of c2 hxx
    have c10 := abs_add_le_of hk c9
    have c11 := abs_mul_le_of c8 c10
    have c12 := abs_add_le_of h1 hy
    have c13 := abs_add_le_of c12 c11
    have c14 := abs_mul_le_of hh hd
    have c15 := abs_mul_le_of c14 c13
    simp only [GeluGradFunctorT, GeluGradFunctor, if_true, FloatVal.square, FloatVal.cube,
      FloatVal.sub, square, cube]
    rw [FloatVal.mul_ff M _ _ (L c1 (by norm_num)), FloatVal.mul_ff M _ _ (L c2 (by norm_num)),
      FloatVal.mul_ff M _ _ (L hxx (by norm_num)), FloatVal.mul_ff M _ _ (L hxxx (by norm_num)),
      FloatVal.mul_ff M _ _ (L c3 (by norm_num)), FloatVal.add_ff M _ _ (L c4 (by norm_num)),
      FloatVal.mul_ff M _ _ (L c5 (by norm_num))]
    simp only [FloatVal.tanh]
    rw [FloatVal.mul_ff M _ _ (L c6 (by norm_num)), FloatVal.mul_ff M _ _ (L c7 (by norm_num))]
    simp only [FloatVal.neg]
    rw [FloatVal.add_ff M _ _ (L c8 (by norm_num)), FloatVal.mul_ff M _ _ (L c9 (by norm_num)),
      FloatVal.add_ff M _ _ (L c10 (by norm_num)), FloatVal.mul_ff M _ _ (L c11 (by norm_num)),
      FloatVal.add_ff M _ _ (L c12 (by norm_num)), FloatVal.add_ff M _ _ (L c13 (by norm_num)),
      FloatVal.mul_ff M _ _ (L c14 (by norm_num)), FloatVal.mul_ff M _ _ (L c15 (by norm_num))]
    rw [sub_eq_add_neg]

end

end GeluOp
